import Mathlib

/-!
# Verification of the CSE dividend scraper core

Shallow embedding of `src/cse_dividend_scraper.py`:

* the field extractor `extract_dividend_data`,
* the pagination crawler `scrape_dividend_announcements`,
* the month filter `filter_by_month`.

Python regular-expression searches are embedded as dedicated executable
scanners over `List Char`.  Each scanner implements the leftmost-match
semantics of `re.search` for its one fixed pattern; where the pattern is
deterministic (adjacent greedy pieces draw from disjoint character
classes) the scanner is a straight-line consumer, and for the one pattern
where Python's backtracking is observable (`Financial Year`) the scanner
implements the backtracking result directly.  Machine integers do not
occur; Python `int` is modelled as `Int` where subtraction may go
negative and as `Nat` elsewhere.
-/

namespace CseScraper

/-- Python `\s` on the ASCII range: the whitespace characters of `str.strip`
and of `\s` in the scraper's patterns. -/
def isSpacePy (c : Char) : Bool :=
  c = ' ' || c = '\t' || c = '\n' || c = '\r' || c = '\x0b' || c = '\x0c'

/-- Character class `[\d\s/]` of the `Financial Year:` pattern. -/
def isFinCls (c : Char) : Bool :=
  c.isDigit || isSpacePy c || c = '/'

/-- Character class `[\d.]` of the `Rate of Dividend:` pattern. -/
def isRateCls (c : Char) : Bool :=
  c.isDigit || c = '.'

/-- `re.search` driver: try the matcher at every start position, leftmost
first, including the empty suffix at the end of the string. -/
def searchWith (m : List Char → Option α) : List Char → Option α
  | [] => m []
  | c :: cs =>
    match m (c :: cs) with
    | some r => some r
    | none => searchWith m cs

/-- Consume exactly `n` characters satisfying `p` (the `p{n}` regex piece):
returns the consumed run and the rest, or `none` if any of the first `n`
characters is missing or fails `p`. -/
def takeExactly (p : Char → Bool) : Nat → List Char → Option (List Char × List Char)
  | 0, cs => some ([], cs)
  | _ + 1, [] => none
  | n + 1, c :: cs =>
    if p c then
      match takeExactly p n cs with
      | some (run, rest) => some (c :: run, rest)
      | none => none
    else none

/-- Consume a literal string (a fixed regex piece). -/
def takeLit (lit : List Char) (cs : List Char) : Option (List Char) :=
  if lit.isPrefixOf cs then some (cs.drop lit.length) else none

/-- The regex piece `\s*-?\s*` as it behaves in the scraper's patterns:
whenever the piece that follows it cannot start with whitespace or `-`,
greedy consumption with no backtracking is exactly Python's semantics. -/
def skipWsDash (cs : List Char) : List Char :=
  let r := cs.dropWhile isSpacePy
  match r with
  | '-' :: r' => r'.dropWhile isSpacePy
  | _ => r

/-- Matcher at one position for the date token `\d{2}-[A-Za-z]{3}-\d{4}`
(separator given by `sep`, `-` in titles and announcement dates, `.` in XD
dates).  Returns the matched token. -/
def matchDateTokenSep (sep : Char) (cs : List Char) : Option (List Char) :=
  match takeExactly Char.isDigit 2 cs with
  | none => none
  | some (d1, r1) =>
    match r1 with
    | c :: r2 =>
      if c = sep then
        match takeExactly Char.isAlpha 3 r2 with
        | none => none
        | some (mth, r3) =>
          match r3 with
          | c2 :: r4 =>
            if c2 = sep then
              match takeExactly Char.isDigit 4 r4 with
              | none => none
              | some (d2, _) => some (d1 ++ [sep] ++ mth ++ [sep] ++ d2)
            else none
          | [] => none
      else none
    | [] => none

/-- `re.search(r'(\d{2}-[A-Za-z]{3}-\d{4})', title)` — the title date. -/
def re_title_date (s : String) : Option String :=
  (searchWith (matchDateTokenSep '-') s.toList).map List.asString

/-- Matcher at one position for `-\s+([A-Z]+)\s*$`.  The adjacent classes
(`\s`, `[A-Z]`) are disjoint, so greedy consumption is exact. -/
def matchCodeAt (cs : List Char) : Option (List Char) :=
  match cs with
  | '-' :: rest =>
    let sp := rest.takeWhile isSpacePy
    let r1 := rest.dropWhile isSpacePy
    if sp.isEmpty then none
    else
      let ups := r1.takeWhile Char.isUpper
      let r2 := r1.dropWhile Char.isUpper
      if ups.isEmpty then none
      else if (r2.dropWhile isSpacePy).isEmpty then some ups else none
  | _ => none

/-- `re.search(r'-\s+([A-Z]+)\s*$', title)` — the trailing company code. -/
def re_code (s : String) : Option String :=
  (searchWith matchCodeAt s.toList).map List.asString

/-- Matcher at one position for
`Date of (?:Initial )?Announcement:\s*-?\s*(\d{2}-[A-Za-z]{3}-\d{4})`. -/
def matchAnnDateAt (cs : List Char) : Option (List Char) :=
  match takeLit "Date of ".toList cs with
  | none => none
  | some r1 =>
    let r2 :=
      match takeLit "Initial ".toList r1 with
      | some r => r
      | none => r1
    match takeLit "Announcement:".toList r2 with
    | none => none
    | some r3 => matchDateTokenSep '-' (skipWsDash r3)

/-- `re.search(r'Date of (?:Initial )?Announcement:\s*-?\s*(\d{2}-[A-Za-z]{3}-\d{4})', content)`. -/
def re_ann_date (s : String) : Option String :=
  (searchWith matchAnnDateAt s.toList).map List.asString

/-- Matcher at one position for `XD:\s*-?\s*(\d{2}\.[A-Za-z]{3}\.\d{4})`. -/
def matchXdAt (cs : List Char) : Option (List Char) :=
  match takeLit "XD:".toList cs with
  | none => none
  | some r1 => matchDateTokenSep '.' (skipWsDash r1)

/-- `re.search(r'XD:\s*-?\s*(\d{2}\.[A-Za-z]{3}\.\d{4})', content)` — the
raw dotted XD token before the dots are replaced by dashes. -/
def re_xd_date (s : String) : Option String :=
  (searchWith matchXdAt s.toList).map List.asString

/-- Matcher at one position for `XD:\s*-?\s*TBA`. -/
def matchXdTbaAt (cs : List Char) : Option Unit :=
  match takeLit "XD:".toList cs with
  | none => none
  | some r1 =>
    match takeLit "TBA".toList (skipWsDash r1) with
    | none => none
    | some _ => some ()

/-- `re.search(r'XD:\s*-?\s*TBA', content)` as a Boolean test. -/
def re_xd_tba (s : String) : Bool :=
  (searchWith matchXdTbaAt s.toList).isSome

/-- The group captured by `\s*-?\s*([\d\s/]+)` starting at `t`, following
Python's backtracking order (each greedy piece longest first, `-?` present
first, earlier pieces dominating).  Because `\s` belongs both to the gaps
and to the captured class, backtracking is observable here; this function
returns the capture that the Python engine produces:
* if, after the greedy gap, the next character is in `[\d/]` (or the gap
  ends inside whitespace absorbed by the group), the capture is the
  maximal `[\d\s/]` run from there;
* otherwise, if at least one whitespace character was skipped, the engine
  backs up one character and captures that single whitespace character;
* otherwise there is no match at this position. -/
def finYearGroup (t : List Char) : Option (List Char) :=
  let a := t.takeWhile isSpacePy
  let u := t.dropWhile isSpacePy
  match u with
  | '-' :: u' =>
    let b := u'.takeWhile isSpacePy
    let v := u'.dropWhile isSpacePy
    match v with
    | c :: _ =>
      if isFinCls c then some (v.takeWhile isFinCls)
      else if !b.isEmpty then some [b.getLastD ' ']
      else if !a.isEmpty then some [a.getLastD ' ']
      else none
    | [] =>
      if !b.isEmpty then some [b.getLastD ' ']
      else if !a.isEmpty then some [a.getLastD ' ']
      else none
  | c :: _ =>
    if isFinCls c then some (u.takeWhile isFinCls)
    else if !a.isEmpty then some [a.getLastD ' ']
    else none
  | [] =>
    if !a.isEmpty then some [a.getLastD ' '] else none

/-- Matcher at one position for `Financial Year:\s*-?\s*([\d\s/]+)`. -/
def matchFinYearAt (cs : List Char) : Option (List Char) :=
  match takeLit "Financial Year:".toList cs with
  | none => none
  | some r1 => finYearGroup r1

/-- `re.search(r'Financial Year:\s*-?\s*([\d\s/]+)', content)` — the raw
group before `.strip()`. -/
def re_fin_year (s : String) : Option String :=
  (searchWith matchFinYearAt s.toList).map List.asString

/-- Matcher at one position for
`Rate of Dividend:\s*-?\s*Rs\.\s*([\d.]+)\s*per share`. -/
def matchRateAt (cs : List Char) : Option (List Char) :=
  match takeLit "Rate of Dividend:".toList cs with
  | none => none
  | some r1 =>
    match takeLit "Rs.".toList (skipWsDash r1) with
    | none => none
    | some r2 =>
      let r3 := r2.dropWhile isSpacePy
      let num := r3.takeWhile isRateCls
      let r4 := r3.dropWhile isRateCls
      if num.isEmpty then none
      else
        match takeLit "per share".toList (r4.dropWhile isSpacePy) with
        | none => none
        | some _ => some num

/-- `re.search(r'Rate of Dividend:\s*-?\s*Rs\.\s*([\d.]+)\s*per share', content)`. -/
def re_rate (s : String) : Option String :=
  (searchWith matchRateAt s.toList).map List.asString

/-- Python `str.strip()` on the ASCII range. -/
def pyStrip (s : String) : String :=
  ((s.toList.dropWhile isSpacePy).reverse.dropWhile isSpacePy).reverse.asString

/-- Python `str.split(sep)` for a one-character separator: split at every
occurrence, keeping empty pieces (`"a--b".split('-') == ['a', '', 'b']`). -/
def splitOnChar (sep : Char) (cs : List Char) : List (List Char) :=
  cs.foldr
    (fun c acc =>
      match acc with
      | [] => [[c]]
      | cur :: rest => if c = sep then [] :: cur :: rest else (c :: cur) :: rest)
    [[]]

/-- `[line.strip() for line in content.split('\n') if line.strip()]`. -/
def contentLines (content : String) : List String :=
  (((splitOnChar '\n' content.toList).map List.asString).map pyStrip).filter
    (fun l => l ≠ "")

/-- `xd_match.group(1).replace('.', '-')`: every dot becomes a dash. -/
def replaceDots (s : String) : String :=
  (s.toList.map (fun c => if c = '.' then '-' else c)).asString

/-- The title heading of a post, `post.find(['h3', 'h2'])`: `linkText` is
the text of the `<a>` inside it (`title_elem.find('a')` then
`get_text()`), `none` when the heading holds no hyperlink. -/
structure Heading where
  linkText : Option String
  deriving Repr, DecidableEq

/-- One blog-post fragment as the extractor sees it: `heading` abstracts
`post.find(['h3', 'h2'])` (`none` when neither `h3` nor `h2` occurs), and
`content` is `post.get_text()`, the flattened text. -/
structure Post where
  heading : Option Heading
  content : String
  deriving Repr, DecidableEq

/-- The extractor's result dictionary: each Python dict key becomes an
optional field (`some` iff the key was inserted). -/
structure DivRecord where
  Post_Date : Option String := none
  Company_Code : Option String := none
  Company_Name : Option String := none
  Date_of_Announcement : Option String := none
  XD_Date : Option String := none
  Financial_Year : Option String := none
  Dividend_Rate : Option String := none
  deriving Repr, DecidableEq

/-- `extract_dividend_data(post)` from the source: gate on heading, link
and title date token, then fill the remaining fields by independent
pattern searches over the flattened text. -/
def extract_dividend_data (post : Post) : Option DivRecord :=
  match post.heading with
  | none => none
  | some title_elem =>
    match title_elem.linkText with
    | none => none
    | some title =>
      match re_title_date title with
      | none => none
      | some post_date =>
        let content := post.content
        let lines := contentLines content
        some
          { Post_Date := some post_date
            Company_Code := re_code title
            Company_Name := lines.get? 1
            Date_of_Announcement := re_ann_date content
            XD_Date :=
              match re_xd_date content with
              | some xd => some (replaceDots xd)
              | none => if re_xd_tba content then some "TBA" else none
            Financial_Year := (re_fin_year content).map pyStrip
            Dividend_Rate := (re_rate content).map (fun n => "Rs. " ++ n) }

/-- A parsed calendar date as `datetime.strptime` produces it. -/
structure DateDMY where
  year : Nat
  month : Nat
  day : Nat
  deriving Repr, DecidableEq

/-- Month number of a `%b` abbreviated month name; `strptime` matches the
abbreviations case-insensitively. -/
def monthOfAbbrev (m : List Char) : Option Nat :=
  match m.map Char.toLower with
  | ['j', 'a', 'n'] => some 1
  | ['f', 'e', 'b'] => some 2
  | ['m', 'a', 'r'] => some 3
  | ['a', 'p', 'r'] => some 4
  | ['m', 'a', 'y'] => some 5
  | ['j', 'u', 'n'] => some 6
  | ['j', 'u', 'l'] => some 7
  | ['a', 'u', 'g'] => some 8
  | ['s', 'e', 'p'] => some 9
  | ['o', 'c', 't'] => some 10
  | ['n', 'o', 'v'] => some 11
  | ['d', 'e', 'c'] => some 12
  | _ => none

/-- Decimal value of a digit run, as `int()` reads the `%d`/`%Y` groups. -/
def natOfDigits (ds : List Char) : Nat :=
  ds.foldl (fun n c => 10 * n + (c.toNat - '0'.toNat)) 0

/-- Length of a month, with the Gregorian leap-year rule used by
`datetime.date`. -/
def days_in_month (year month : Nat) : Nat :=
  if month = 2 then
    if year % 4 = 0 && (year % 100 ≠ 0 || year % 400 = 0) then 29 else 28
  else if month = 4 || month = 6 || month = 9 || month = 11 then 30
  else 31

/-- `datetime.strptime(s, '%d-%b-%Y')`: `%d` is one or two digits with
value 1–31, `%b` an abbreviated month name (case-insensitive), `%Y`
exactly four digits; the whole string must be consumed, and the
`datetime.date` constructor then rejects days past the end of the month
and year 0.  Returns `none` exactly when Python raises `ValueError`. -/
def parse_dmy (s : String) : Option DateDMY :=
  match splitOnChar '-' s.toList with
  | [d, m, y] =>
    if !d.isEmpty && d.length ≤ 2 && d.all Char.isDigit &&
        y.length = 4 && y.all Char.isDigit then
      match monthOfAbbrev m with
      | none => none
      | some month =>
        let day := natOfDigits d
        let year := natOfDigits y
        if 1 ≤ day && day ≤ days_in_month year month && 1 ≤ year then
          some { year := year, month := month, day := day }
        else none
    else none
  | _ => none

/-- The loop body of `filter_by_month`: walk the records, appending to
`filtered` those whose `Date_of_Announcement` is present, parses under
`%d-%b-%Y`, and has the requested month; parse failures are swallowed by
the `except: pass`. -/
def filter_go (month_number : Int) (filtered : List DivRecord) :
    List DivRecord → List DivRecord
  | [] => filtered
  | div :: rest =>
    match div.Date_of_Announcement with
    | none => filter_go month_number filtered rest
    | some s =>
      match parse_dmy s with
      | none => filter_go month_number filtered rest
      | some ann_date =>
        if (ann_date.month : Int) = month_number then
          filter_go month_number (filtered ++ [div]) rest
        else
          filter_go month_number filtered rest

/-- `filter_by_month(dividends, month_number)` from the source. -/
def filter_by_month (dividends : List DivRecord) (month_number : Int) :
    List DivRecord :=
  filter_go month_number [] dividends

/-- A fetched page as the crawler inspects it: `posts_primary` are the
fragments matched by `find_all('div', class_='post-outer')`,
`posts_fallback` those matched by the looser
`find_all(['div', 'article'], class_=re.compile('post|entry'))`, and
`older_href` is the `href` of the `a.blog-pager-older-link` anchor
(`none` when the anchor or its `href` attribute is missing; `some ""` is
an empty `href`, which is falsy in Python). -/
structure PageSoup where
  posts_primary : List Post
  posts_fallback : List Post
  older_href : Option String
  deriving Repr

/-- `posts = soup.find_all('div', class_='post-outer')` with the fallback
to the looser selector when the primary finds nothing. -/
def posts_of (soup : PageSoup) : List Post :=
  if soup.posts_primary.isEmpty then soup.posts_fallback else soup.posts_primary

/-- The environment of the crawl: fetching a URL either raises (`none`,
any exception inside the `try` block) or yields a parsed page. -/
def Web : Type := String → Option PageSoup

/-- The mutable state of the `while` loop in
`scrape_dividend_announcements`: the pending URL queue, the visited set
(a list, inserted into only when the URL is absent), the accumulator,
and the page counter.  `fetch_log`, in source order, records each URL
passed to the fetcher — instrumentation for stating the
no-refetch property, written exactly when the fetch is attempted. -/
structure CrawlState where
  page_urls : List String
  visited : List String
  all_dividends : List DivRecord
  page_count : Nat
  fetch_log : List String
  deriving Repr

/-- The `for post in posts:` loop: extract each fragment; a record with a
present `Date_of_Announcement` that parses is appended when its year is
at least the cutoff year, while a year strictly below the cutoff clears
the queue and breaks out (second component `true`); an extraction
failure, a missing field or a `strptime` failure is skipped by
`except: pass`. -/
def process_posts (cutoff_year : Int) :
    List Post → List DivRecord → List DivRecord × Bool
  | [], acc => (acc, false)
  | post :: rest, acc =>
    match extract_dividend_data post with
    | none => process_posts cutoff_year rest acc
    | some dividend_data =>
      match dividend_data.Date_of_Announcement with
      | none => process_posts cutoff_year rest acc
      | some ds =>
        match parse_dmy ds with
        | none => process_posts cutoff_year rest acc
        | some ann_date =>
          if (ann_date.year : Int) ≥ cutoff_year then
            process_posts cutoff_year rest (acc ++ [dividend_data])
          else
            (acc, true)

/-- One iteration of the `while` loop, assuming the queue is non-empty:
pop the head; skip it if visited; otherwise mark it visited, count the
page, fetch it (an exception just moves on), process its posts, clear
the queue on the cutoff signal, and finally enqueue the unvisited
older-posts link if one is present with a truthy `href`. -/
def crawl_step (web : Web) (cutoff_year : Int) (s : CrawlState) : CrawlState :=
  match s.page_urls with
  | [] => s
  | url :: rest =>
    if url ∈ s.visited then
      { s with page_urls := rest }
    else
      let visited' := url :: s.visited
      let count' := s.page_count + 1
      let log' := s.fetch_log ++ [url]
      match web url with
      | none =>
        { page_urls := rest, visited := visited',
          all_dividends := s.all_dividends, page_count := count',
          fetch_log := log' }
      | some soup =>
        let res := process_posts cutoff_year (posts_of soup) s.all_dividends
        let q1 := if res.2 then [] else rest
        let q2 :=
          match soup.older_href with
          | some next_url =>
            if next_url ≠ "" && next_url ∉ visited' then q1 ++ [next_url]
            else q1
          | none => q1
        { page_urls := q2, visited := visited', all_dividends := res.1,
          page_count := count', fetch_log := log' }

/-- A skipped (already-visited) head only shortens the queue; any other
non-empty iteration increments the page counter by one. -/
theorem crawl_step_count_cases (web : Web) (cutoff_year : Int)
    (s : CrawlState) (url : String) (rest : List String)
    (hq : s.page_urls = url :: rest) :
    ((crawl_step web cutoff_year s).page_count = s.page_count ∧
      (crawl_step web cutoff_year s).page_urls = rest) ∨
    (crawl_step web cutoff_year s).page_count = s.page_count + 1 := by
  by_cases hv : url ∈ s.visited
  · left
    simp [crawl_step, hq, hv]
  · right
    cases hw : web url <;> simp [crawl_step, hq, hv, hw]

/-- `while page_urls and page_count < max_pages:` — the crawl loop.
Termination is by the lexicographic measure
(remaining page budget, queue length): a counted iteration shrinks the
budget, a skip leaves the budget and shortens the queue. -/
def crawl_loop (web : Web) (cutoff_year : Int) (max_pages : Nat)
    (s : CrawlState) : CrawlState :=
  if h : s.page_urls = [] ∨ max_pages ≤ s.page_count then s
  else crawl_loop web cutoff_year max_pages (crawl_step web cutoff_year s)
termination_by (max_pages - s.page_count, s.page_urls.length)
decreasing_by
  push_neg at h
  obtain ⟨hq, hc⟩ := h
  obtain ⟨url, rest, hurl⟩ : ∃ url rest, s.page_urls = url :: rest := by
    cases hu : s.page_urls with
    | nil => exact absurd hu hq
    | cons a l => exact ⟨a, l, rfl⟩
  rcases crawl_step_count_cases web cutoff_year s url rest hurl with
    ⟨hsame, hqueue⟩ | hinc
  · rw [hsame, hqueue, hurl]
    exact Prod.Lex.right _ (Nat.lt_succ_self _)
  · rw [hinc]
    exact Prod.Lex.left _ _ (by omega)

/-- The fixed entry URL of the blog. -/
def base_url : String := "https://cse-dividend-announcements.blogspot.com/"

/-- The initial crawler state: queue seeded with the base URL, everything
else empty. -/
def scrape_init : CrawlState :=
  { page_urls := [base_url], visited := [], all_dividends := [],
    page_count := 0, fetch_log := [] }

/-- `scrape_dividend_announcements(num_years)` as a function of the web
and of `datetime.now().year`: cutoff year `current_year - num_years`,
page ceiling `num_years * 20`, returning the final crawler state (the
Python function returns its `all_dividends` component). -/
def scrape_dividend_announcements (web : Web) (current_year : Int)
    (num_years : Nat) : CrawlState :=
  crawl_loop web (current_year - num_years) (num_years * 20) scrape_init

/-- `s` is exactly one date token `DD<sep>Mon<sep>YYYY` (two digits,
separator, three letters, separator, four digits, nothing else). -/
def is_date_token (sep : Char) (s : String) : Bool :=
  decide (matchDateTokenSep sep s.toList = some s.toList)

/-! ## Helper lemmas -/

theorem filter_go_spec (month_number : Int) :
    ∀ (l : List DivRecord) (acc : List DivRecord),
      filter_go month_number acc l =
        acc ++ l.filter (fun div =>
          match div.Date_of_Announcement with
          | none => false
          | some s =>
            match parse_dmy s with
            | none => false
            | some ann_date => decide ((ann_date.month : Int) = month_number)) := by
  intro l
  induction l with
  | nil => intro acc; simp [filter_go]
  | cons div rest ih =>
    intro acc
    cases hda : div.Date_of_Announcement with
    | none => simp [filter_go, hda, ih]
    | some s =>
      cases hp : parse_dmy s with
      | none => simp [filter_go, hda, hp, ih]
      | some ann_date =>
        by_cases hm : (ann_date.month : Int) = month_number
        · simp [filter_go, hda, hp, hm, ih]
        · simp [filter_go, hda, hp, hm, ih]

/-! ## C1: the month filter -/

/-- C1: for every record list and every month number in `1..12`,
`filter_by_month` returns exactly the records whose `Date_of_Announcement`
is present and parses under `%d-%b-%Y` with month component equal to
`month_number` — a `List.filter`, so the relative order of the input is
preserved and records with a missing or unparseable date are silently
dropped rather than failing the call. -/
theorem filter_by_month_correct (records : List DivRecord) (month_number : Int)
    (h1 : 1 ≤ month_number) (h2 : month_number ≤ 12) :
    filter_by_month records month_number =
      records.filter (fun div =>
        match div.Date_of_Announcement with
        | none => false
        | some s =>
          match parse_dmy s with
          | none => false
          | some ann_date => decide ((ann_date.month : Int) = month_number)) := by
  simpa [filter_by_month] using filter_go_spec month_number records []

/-- Closed instance of `filter_by_month_correct` at month 6 and a
three-record list: one June record kept, one unparseable record and one
date-free record dropped. -/
theorem filter_by_month_correct_witness :
    filter_by_month
        [{ Date_of_Announcement := some "05-Jun-2024" },
         { Date_of_Announcement := some "31-Feb-2024" },
         { Company_Name := some "n" }] 6 =
      [{ Date_of_Announcement := some "05-Jun-2024" }] := by
  rw [filter_by_month_correct _ 6 (by decide) (by decide)]
  decide

/-! ## C4: the extractor's gating steps -/

/-- C4: `extract_dividend_data` returns `None` exactly when a gating step
fails — no `h3`/`h2` heading, no hyperlink in the heading, or no
`DD-Mon-YYYY` token in the link's text; when all three gates pass, the
extraction proceeds and the found token is stored as `Post_Date`. -/
theorem extract_gating (p : Post) :
    (extract_dividend_data p = none ↔
      p.heading = none ∨
      (∃ hd, p.heading = some hd ∧ hd.linkText = none) ∨
      (∃ hd t, p.heading = some hd ∧ hd.linkText = some t ∧
        re_title_date t = none)) ∧
    (∀ r, extract_dividend_data p = some r →
      ∃ hd t tok, p.heading = some hd ∧ hd.linkText = some t ∧
        re_title_date t = some tok ∧ r.Post_Date = some tok) := by
  obtain ⟨hd?, content⟩ := p
  cases hd? with
  | none => simp [extract_dividend_data]
  | some hd =>
    obtain ⟨lt?⟩ := hd
    cases lt? with
    | none => simp [extract_dividend_data]
    | some t =>
      cases ht : re_title_date t with
      | none => simp [extract_dividend_data, ht]
      | some tok =>
        constructor
        · simp [extract_dividend_data, ht]
        · intro r hr
          refine ⟨⟨some t⟩, t, tok, rfl, rfl, ht, ?_⟩
          simp only [extract_dividend_data, ht] at hr
          cases hr
          rfl

/-- Closed instance of `extract_gating`: a fragment with a heading but no
hyperlink is rejected. -/
theorem extract_gating_witness :
    extract_dividend_data { heading := some { linkText := none }, content := "x" } = none :=
  (extract_gating _).1.mpr (Or.inr (Or.inl ⟨{ linkText := none }, rfl, rfl⟩))

/-! ## C10: records with a well-shaped but invalid calendar date -/

/-- C10: if a fragment extracts to a record whose `Date_of_Announcement`
string has the textual `DD-Mon-YYYY` shape but is rejected by strict
`strptime` parsing (an impossible calendar date), the crawler's post loop
silently skips that fragment: nothing is appended, the cutoff signal is
not raised, and processing continues with the remaining fragments. -/
theorem process_posts_skips_invalid_date (cutoff_year : Int) (post : Post)
    (rest : List Post) (acc : List DivRecord) (d : DivRecord) (s : String)
    (hx : extract_dividend_data post = some d)
    (hda : d.Date_of_Announcement = some s)
    (hshape : is_date_token '-' s = true)
    (hp : parse_dmy s = none) :
    process_posts cutoff_year (post :: rest) acc =
      process_posts cutoff_year rest acc := by
  simp [process_posts, hx, hda, hp]

/-- Closed instance of `process_posts_skips_invalid_date` on a fragment
dated `31-Feb-2024`: the post loop ignores it entirely. -/
theorem process_posts_skips_invalid_date_witness :
    process_posts 0
        [{ heading := some { linkText := some "Foo 01-Jan-2024" },
           content := "x\nDate of Announcement: 31-Feb-2024" }] [] =
      process_posts 0 [] [] :=
  process_posts_skips_invalid_date 0 _ [] []
    { Post_Date := some "01-Jan-2024",
      Company_Name := some "Date of Announcement: 31-Feb-2024",
      Date_of_Announcement := some "31-Feb-2024" }
    "31-Feb-2024" (by decide) (by decide) (by decide) (by decide)

/-! ## Crawl-loop helper lemmas -/

theorem crawl_loop_inv (P : CrawlState → Prop) (web : Web) (cy : Int) (m : Nat)
    (hstep : ∀ s, s.page_urls ≠ [] → s.page_count < m → P s →
      P (crawl_step web cy s)) :
    ∀ s, P s → P (crawl_loop web cy m s) := by
  intro s hs
  induction s using crawl_loop.induct web cy m with
  | case1 s h => rw [crawl_loop, dif_pos h]; exact hs
  | case2 s h ih =>
    rw [crawl_loop, dif_neg h]
    push_neg at h
    exact ih (hstep s h.1 (by omega) hs)

theorem crawl_loop_exits (web : Web) (cy : Int) (m : Nat) :
    ∀ s, (crawl_loop web cy m s).page_urls = [] ∨
      m ≤ (crawl_loop web cy m s).page_count := by
  intro s
  induction s using crawl_loop.induct web cy m with
  | case1 s h => rw [crawl_loop, dif_pos h]; exact h
  | case2 s h ih => rw [crawl_loop, dif_neg h]; exact ih

theorem process_posts_mem (cutoff_year : Int) :
    ∀ (posts : List Post) (acc : List DivRecord) (d : DivRecord),
      d ∈ (process_posts cutoff_year posts acc).1 →
      d ∈ acc ∨ ∃ s dt, d.Date_of_Announcement = some s ∧ parse_dmy s = some dt := by
  intro posts
  induction posts with
  | nil => intro acc d hd; exact Or.inl hd
  | cons post rest ih =>
    intro acc d hd
    cases hx : extract_dividend_data post with
    | none =>
      simp only [process_posts, hx] at hd
      exact ih acc d hd
    | some dividend_data =>
      cases hda : dividend_data.Date_of_Announcement with
      | none =>
        simp only [process_posts, hx, hda] at hd
        exact ih acc d hd
      | some ds =>
        cases hp : parse_dmy ds with
        | none =>
          simp only [process_posts, hx, hda, hp] at hd
          exact ih acc d hd
        | some ann_date =>
          by_cases hy : (ann_date.year : Int) ≥ cutoff_year
          · simp only [process_posts, hx, hda, hp] at hd
            rw [if_pos hy] at hd
            rcases ih _ d hd with hin | hex
            · rcases List.mem_append.mp hin with h1 | h1
              · exact Or.inl h1
              · rcases List.mem_singleton.mp h1 with rfl
                exact Or.inr ⟨ds, ann_date, hda, hp⟩
            · exact Or.inr hex
          · simp only [process_posts, hx, hda, hp] at hd
            rw [if_neg hy] at hd
            exact Or.inl hd

theorem crawl_step_records (web : Web) (cy : Int) (s : CrawlState)
    (h : ∀ d ∈ s.all_dividends, d.Date_of_Announcement.isSome) :
    ∀ d ∈ (crawl_step web cy s).all_dividends, d.Date_of_Announcement.isSome := by
  intro d hd
  cases hq : s.page_urls with
  | nil =>
    simp only [crawl_step, hq] at hd
    exact h d hd
  | cons url rest =>
    by_cases hv : url ∈ s.visited
    · simp [crawl_step, hq, hv] at hd
      exact h d hd
    · cases hw : web url with
      | none =>
        simp [crawl_step, hq, hv, hw] at hd
        exact h d hd
      | some soup =>
        simp [crawl_step, hq, hv, hw] at hd
        rcases process_posts_mem cy (posts_of soup) s.all_dividends d hd with
          hin | ⟨ds, dt, hda, _⟩
        · exact h d hin
        · rw [hda]; rfl

/-! ## C2: accumulated records always carry an announcement date -/

/-- C2: a record produced by the extractor without `Date_of_Announcement`
is never appended — one crawl iteration (`crawl_step`) preserves the
invariant that every accumulated record has the field, and therefore
every record in the final accumulator of `scrape_dividend_announcements`
has it. -/
theorem accumulator_records_have_date :
    (∀ (web : Web) (cy : Int) (s : CrawlState),
      (∀ d ∈ s.all_dividends, d.Date_of_Announcement.isSome) →
      ∀ d ∈ (crawl_step web cy s).all_dividends, d.Date_of_Announcement.isSome) ∧
    (∀ (web : Web) (current_year : Int) (num_years : Nat),
      ∀ d ∈ (scrape_dividend_announcements web current_year num_years).all_dividends,
        d.Date_of_Announcement.isSome) := by
  constructor
  · exact crawl_step_records
  · intro web current_year num_years
    exact crawl_loop_inv
      (fun s => ∀ d ∈ s.all_dividends, d.Date_of_Announcement.isSome)
      web _ _ (fun s _ _ => crawl_step_records web _ s) scrape_init
      (by intro d hd; simp [scrape_init] at hd)

/-- Concrete web page used by closed witnesses: one valid post dated
`05-Jun-2024` and no pagination link. -/
def webOnePost : Web := fun _ =>
  some { posts_primary :=
          [{ heading := some { linkText := some "Acme 05-Jun-2024 - ACME" },
             content := "t\nAcme Corp\nDate of Announcement: 05-Jun-2024" }],
         posts_fallback := [], older_href := none }

/-- Closed instance of `accumulator_records_have_date`: after one
iteration on `webOnePost` the single accumulated record has its
announcement date. -/
theorem accumulator_records_have_date_witness :
    ({ Post_Date := some "05-Jun-2024", Company_Code := some "ACME",
       Company_Name := some "Acme Corp",
       Date_of_Announcement := some "05-Jun-2024" } :
        DivRecord).Date_of_Announcement.isSome :=
  accumulator_records_have_date.1 webOnePost 0 scrape_init
    (by intro d hd; simp [scrape_init] at hd) _ (by decide)

/-! ## C3: the page ceiling and loop exit condition -/

/-- C3: for every start URL and positive `num_years`, the crawl loop (a
total function, so it terminates on every input) processes at most
`num_years * 20` pages, and on exit either the URL queue is empty or the
page counter has reached exactly that ceiling; the same bound holds for
`scrape_dividend_announcements` itself. -/
theorem crawl_page_ceiling (web : Web) (cutoff_year : Int) (start_url : String)
    (num_years : Nat) (current_year : Int) (h : 0 < num_years) :
    ((crawl_loop web cutoff_year (num_years * 20)
        { page_urls := [start_url], visited := [], all_dividends := [],
          page_count := 0, fetch_log := [] }).page_count ≤ num_years * 20) ∧
    ((crawl_loop web cutoff_year (num_years * 20)
        { page_urls := [start_url], visited := [], all_dividends := [],
          page_count := 0, fetch_log := [] }).page_urls = [] ∨
      (crawl_loop web cutoff_year (num_years * 20)
        { page_urls := [start_url], visited := [], all_dividends := [],
          page_count := 0, fetch_log := [] }).page_count = num_years * 20) ∧
    (scrape_dividend_announcements web current_year num_years).page_count ≤
      num_years * 20 := by
  have hbound : ∀ (cy : Int) (s : CrawlState), s.page_count ≤ num_years * 20 →
      (crawl_loop web cy (num_years * 20) s).page_count ≤ num_years * 20 := by
    intro cy
    apply crawl_loop_inv (fun s => s.page_count ≤ num_years * 20)
    intro s hne hlt _
    obtain ⟨url, rest, hurl⟩ : ∃ url rest, s.page_urls = url :: rest := by
      cases hu : s.page_urls with
      | nil => exact absurd hu hne
      | cons a l => exact ⟨a, l, rfl⟩
    rcases crawl_step_count_cases web cy s url rest hurl with
      ⟨hsame, _⟩ | hinc
    · omega
    · omega
  have h1 := hbound cutoff_year
    { page_urls := [start_url], visited := [], all_dividends := [],
      page_count := 0, fetch_log := [] } (by simp)
  refine ⟨h1, ?_,
    by simpa [scrape_dividend_announcements] using
      hbound (current_year - num_years) scrape_init (by simp [scrape_init])⟩
  rcases crawl_loop_exits web cutoff_year (num_years * 20)
      { page_urls := [start_url], visited := [], all_dividends := [],
        page_count := 0, fetch_log := [] } with hq | hc
  · exact Or.inl hq
  · exact Or.inr (le_antisymm h1 hc)

/-- Closed instance of `crawl_page_ceiling` for a one-year crawl of the
always-failing web. -/
theorem crawl_page_ceiling_witness :
    ((crawl_loop (fun _ => none) 0 (1 * 20)
        { page_urls := ["u"], visited := [], all_dividends := [],
          page_count := 0, fetch_log := [] }).page_count ≤ 1 * 20) ∧
    ((crawl_loop (fun _ => none) 0 (1 * 20)
        { page_urls := ["u"], visited := [], all_dividends := [],
          page_count := 0, fetch_log := [] }).page_urls = [] ∨
      (crawl_loop (fun _ => none) 0 (1 * 20)
        { page_urls := ["u"], visited := [], all_dividends := [],
          page_count := 0, fetch_log := [] }).page_count = 1 * 20) ∧
    (scrape_dividend_announcements (fun _ => none) 0 1).page_count ≤ 1 * 20 :=
  crawl_page_ceiling (fun _ => none) 0 "u" 1 0 (by decide)

/-! ## C5: the cutoff signal clears the queue but pagination re-seeds it -/

/-- C5: when a fragment of the fetched page yields a record whose
announcement year is strictly below the cutoff year, the post loop stops
at that fragment and signals the clear (`process_posts` returns the
accumulator unchanged with flag `true`, whatever fragments remain), the
iteration abandons the whole pending queue — yet the older-posts link of
that same page, being present, truthy and unvisited, is enqueued
afterwards, so the queue is non-empty after the cutoff-triggered clear. -/
theorem cutoff_clears_and_reseeds (web : Web) (cutoff_year : Int)
    (s : CrawlState) (url href : String) (rest : List String) (soup : PageSoup)
    (post : Post) (rest' : List Post) (acc : List DivRecord)
    (d : DivRecord) (ds : String) (dt : DateDMY)
    (hq : s.page_urls = url :: rest) (hv : url ∉ s.visited)
    (hw : web url = some soup)
    (hcut : (process_posts cutoff_year (posts_of soup) s.all_dividends).2 = true)
    (hx : extract_dividend_data post = some d)
    (hda : d.Date_of_Announcement = some ds)
    (hp : parse_dmy ds = some dt) (hy : (dt.year : Int) < cutoff_year)
    (hhref : soup.older_href = some href) (hne : href ≠ "")
    (hnv : href ∉ url :: s.visited) :
    process_posts cutoff_year (post :: rest') acc = (acc, true) ∧
    (crawl_step web cutoff_year s).all_dividends =
      (process_posts cutoff_year (posts_of soup) s.all_dividends).1 ∧
    (crawl_step web cutoff_year s).page_urls = [href] ∧
    (crawl_step web cutoff_year s).page_urls ≠ [] := by
  refine ⟨?_, ?_, ?_, ?_⟩
  · simp only [process_posts, hx, hda, hp]
    rw [if_neg (not_le.mpr hy)]
  · simp [crawl_step, hq, hv, hw]
  · simp [crawl_step, hq, hv, hw, hcut, hhref, hne, hnv]
  · simp [crawl_step, hq, hv, hw, hcut, hhref, hne, hnv]

/-- The too-old post used by the C5 witness. -/
def pOld : Post :=
  { heading := some { linkText := some "Old 01-Jan-1990" },
    content := "t\nDate of Announcement: 01-Jan-1990" }

/-- The C5 witness page: one too-old post plus an older-posts link. -/
def soupOld : PageSoup :=
  { posts_primary := [pOld], posts_fallback := [], older_href := some "b" }

/-- The C5 witness web: page `"a"` is `soupOld`, all else fails. -/
def webOld : Web := fun u => if u = "a" then some soupOld else none

/-- Closed instance of `cutoff_clears_and_reseeds`: with queue
`["a", "c"]` and cutoff year 2000, page `"a"`'s 1990 post clears the
pending `"c"` but the older-posts link `"b"` is enqueued, leaving queue
`["b"]`. -/
theorem cutoff_clears_and_reseeds_witness :
    process_posts 2000 [pOld] [] = ([], true) ∧
    (crawl_step webOld 2000
      { page_urls := ["a", "c"], visited := [], all_dividends := [],
        page_count := 0, fetch_log := [] }).all_dividends =
      (process_posts 2000 (posts_of soupOld) []).1 ∧
    (crawl_step webOld 2000
      { page_urls := ["a", "c"], visited := [], all_dividends := [],
        page_count := 0, fetch_log := [] }).page_urls = ["b"] ∧
    (crawl_step webOld 2000
      { page_urls := ["a", "c"], visited := [], all_dividends := [],
        page_count := 0, fetch_log := [] }).page_urls ≠ [] :=
  cutoff_clears_and_reseeds webOld 2000
    { page_urls := ["a", "c"], visited := [], all_dividends := [],
      page_count := 0, fetch_log := [] }
    "a" "b" ["c"] soupOld pOld [] []
    { Post_Date := some "01-Jan-1990",
      Company_Name := some "Date of Announcement: 01-Jan-1990",
      Date_of_Announcement := some "01-Jan-1990" }
    "01-Jan-1990" { year := 1990, month := 1, day := 1 }
    rfl (by decide) rfl (by decide) (by decide) (by decide) (by decide)
    (by decide) (by decide) (by decide) (by decide)

/-! ## C6: no URL is ever fetched twice -/

theorem crawl_step_fetch_inv (web : Web) (cy : Int) (s : CrawlState)
    (h1 : s.fetch_log.Nodup) (h2 : ∀ u ∈ s.fetch_log, u ∈ s.visited) :
    (crawl_step web cy s).fetch_log.Nodup ∧
      ∀ u ∈ (crawl_step web cy s).fetch_log, u ∈ (crawl_step web cy s).visited := by
  cases hq : s.page_urls with
  | nil =>
    simp only [crawl_step, hq]
    exact ⟨h1, h2⟩
  | cons url rest =>
    have hmem : ∀ (hv : url ∉ s.visited),
        (s.fetch_log ++ [url]).Nodup ∧
          ∀ u ∈ s.fetch_log ++ [url], u ∈ url :: s.visited := by
      intro hv
      constructor
      · rw [List.nodup_append]
        refine ⟨h1, List.nodup_singleton url, ?_⟩
        intro u hu hu1
        rcases List.mem_singleton.mp hu1 with rfl
        exact hv (h2 u hu)
      · intro u hu
        rcases List.mem_append.mp hu with hu2 | hu2
        · exact List.mem_cons_of_mem _ (h2 u hu2)
        · rcases List.mem_singleton.mp hu2 with rfl
          exact List.mem_cons_self _ _
    by_cases hv : url ∈ s.visited
    · simp only [crawl_step, hq, if_pos hv]
      exact ⟨h1, h2⟩
    · cases hw : web url with
      | none =>
        simp only [crawl_step, hq, if_neg hv, hw]
        exact hmem hv
      | some soup =>
        simp only [crawl_step, hq, if_neg hv, hw]
        exact hmem hv

/-- C6: if every logged fetch is of a URL already marked visited and the
log has no duplicates, one crawl iteration preserves both, so along every
crawl — whether described as iterates of `crawl_step` or as the loop run
by `scrape_dividend_announcements` — no URL is ever fetched twice. -/
theorem no_url_fetched_twice :
    (∀ (web : Web) (cy : Int) (s : CrawlState),
      s.fetch_log.Nodup → (∀ u ∈ s.fetch_log, u ∈ s.visited) →
      (crawl_step web cy s).fetch_log.Nodup) ∧
    (∀ (web : Web) (cy : Int) (n : Nat),
      ((crawl_step web cy)^[n] scrape_init).fetch_log.Nodup) ∧
    (∀ (web : Web) (current_year : Int) (num_years : Nat),
      (scrape_dividend_announcements web current_year num_years).fetch_log.Nodup) := by
  refine ⟨fun web cy s h1 h2 => (crawl_step_fetch_inv web cy s h1 h2).1, ?_, ?_⟩
  · intro web cy n
    have : ∀ n, ((crawl_step web cy)^[n] scrape_init).fetch_log.Nodup ∧
        ∀ u ∈ ((crawl_step web cy)^[n] scrape_init).fetch_log,
          u ∈ ((crawl_step web cy)^[n] scrape_init).visited := by
      intro n
      induction n with
      | zero => simp [scrape_init]
      | succ n ih =>
        rw [Function.iterate_succ_apply']
        exact crawl_step_fetch_inv web cy _ ih.1 ih.2
    exact (this n).1
  · intro web current_year num_years
    have := crawl_loop_inv
      (fun s => s.fetch_log.Nodup ∧ ∀ u ∈ s.fetch_log, u ∈ s.visited)
      web (current_year - num_years) (num_years * 20)
      (fun s _ _ hp => crawl_step_fetch_inv web _ s hp.1 hp.2)
      scrape_init (by simp [scrape_init])
    exact this.1

/-- Closed instance of `no_url_fetched_twice`: one step of the crawl from
the initial state keeps the fetch log duplicate-free. -/
theorem no_url_fetched_twice_witness :
    (crawl_step webOnePost 0 scrape_init).fetch_log.Nodup :=
  no_url_fetched_twice.1 webOnePost 0 scrape_init (by simp [scrape_init])
    (by simp [scrape_init])

/-! ## C9: fetch failures are non-fatal and never retried -/

theorem crawl_step_count_visited (web : Web) (cy : Int) (s : CrawlState)
    (u : String) (hu : u ∈ s.visited) :
    u ∈ (crawl_step web cy s).visited ∧
      (crawl_step web cy s).fetch_log.count u = s.fetch_log.count u := by
  cases hq : s.page_urls with
  | nil => exact ⟨by simp only [crawl_step, hq]; exact hu, by simp only [crawl_step, hq]⟩
  | cons url rest =>
    by_cases hv : url ∈ s.visited
    · exact ⟨by simp only [crawl_step, hq, if_pos hv]; exact hu,
        by simp only [crawl_step, hq, if_pos hv]⟩
    · have hne : url ≠ u := fun h => hv (h ▸ hu)
      have hcount : (s.fetch_log ++ [url]).count u = s.fetch_log.count u := by
        rw [List.count_append]
        have : [url].count u = 0 := List.count_eq_zero.mpr (by
          intro hmem
          exact hne (List.mem_singleton.mp hmem).symm)
        omega
      cases hw : web url with
      | none =>
        simp only [crawl_step, hq, if_neg hv, hw]
        exact ⟨List.mem_cons_of_mem _ hu, hcount⟩
      | some soup =>
        simp only [crawl_step, hq, if_neg hv, hw]
        exact ⟨List.mem_cons_of_mem _ hu, hcount⟩

theorem crawl_loop_no_refetch (web : Web) (cy : Int) (m : Nat) (u : String)
    (k : Nat) :
    ∀ s, u ∈ s.visited → s.fetch_log.count u = k →
      (crawl_loop web cy m s).fetch_log.count u = k := by
  intro s hu hk
  exact (crawl_loop_inv
    (fun s => u ∈ s.visited ∧ s.fetch_log.count u = k) web cy m
    (fun s _ _ hp =>
      ⟨(crawl_step_count_visited web cy s u hp.1).1,
        (crawl_step_count_visited web cy s u hp.1).2.trans hp.2⟩)
    s ⟨hu, hk⟩).2

/-- C9: when the fetch of the queued head URL raises, the iteration only
removes that URL from the queue, marks it visited (before the fetch, so
it is logged once), counts the page, and leaves the accumulator alone —
and however long the crawl then continues, that URL is never fetched
again: its final fetch count is exactly one more than before the failed
iteration. -/
theorem fetch_failure_nonfatal (web : Web) (cy : Int) (m : Nat)
    (s : CrawlState) (url : String) (rest : List String)
    (hq : s.page_urls = url :: rest) (hv : url ∉ s.visited)
    (hw : web url = none) :
    crawl_step web cy s =
      { page_urls := rest, visited := url :: s.visited,
        all_dividends := s.all_dividends, page_count := s.page_count + 1,
        fetch_log := s.fetch_log ++ [url] } ∧
    (crawl_loop web cy m (crawl_step web cy s)).fetch_log.count url =
      s.fetch_log.count url + 1 := by
  have hstep : crawl_step web cy s =
      { page_urls := rest, visited := url :: s.visited,
        all_dividends := s.all_dividends, page_count := s.page_count + 1,
        fetch_log := s.fetch_log ++ [url] } := by
    simp [crawl_step, hq, hv, hw]
  refine ⟨hstep, ?_⟩
  rw [hstep]
  apply crawl_loop_no_refetch
  · exact List.mem_cons_self _ _
  · rw [List.count_append]
    simp

/-- Closed instance of `fetch_failure_nonfatal` on the always-failing
web with queue `["a", "b"]`. -/
theorem fetch_failure_nonfatal_witness :
    crawl_step (fun _ => none) 0
      { page_urls := ["a", "b"], visited := [], all_dividends := [],
        page_count := 0, fetch_log := [] } =
      { page_urls := ["b"], visited := ["a"], all_dividends := [],
        page_count := 0 + 1, fetch_log := [] ++ ["a"] } ∧
    (crawl_loop (fun _ => none) 0 5
      (crawl_step (fun _ => none) 0
        { page_urls := ["a", "b"], visited := [], all_dividends := [],
          page_count := 0, fetch_log := [] })).fetch_log.count "a" =
      ([] : List String).count "a" + 1 :=
  fetch_failure_nonfatal (fun _ => none) 0 5
    { page_urls := ["a", "b"], visited := [], all_dividends := [],
      page_count := 0, fetch_log := [] }
    "a" ["b"] rfl (by decide) rfl

/-! ## Search and matcher lemmas -/

theorem searchWith_eq_some {α : Type} (m : List Char → Option α) :
    ∀ (l : List Char) (v : α), searchWith m l = some v →
      ∃ t, t <:+ l ∧ m t = some v := by
  intro l
  induction l with
  | nil =>
    intro v h
    exact ⟨[], List.suffix_refl [], h⟩
  | cons c cs ih =>
    intro v h
    rw [searchWith] at h
    cases hm : m (c :: cs) with
    | some r =>
      rw [hm] at h
      cases h
      exact ⟨c :: cs, List.suffix_refl _, hm⟩
    | none =>
      rw [hm] at h
      obtain ⟨t, ht, hmt⟩ := ih v h
      exact ⟨t, ht.trans (List.suffix_cons c cs), hmt⟩

theorem searchWith_some_of {α : Type} (m : List Char → Option α) (v : α) :
    ∀ (l : List Char), (∃ u, u <:+ l ∧ (m u).isSome) →
      (∀ u w, u <:+ l → m u = some w → w = v) →
      searchWith m l = some v := by
  intro l
  induction l with
  | nil =>
    intro hex huni
    obtain ⟨u, hu, hsome⟩ := hex
    rcases List.suffix_nil.mp hu with rfl
    rw [searchWith]
    cases hm : m [] with
    | some w => rw [huni [] w (List.suffix_refl []) hm]
    | none => rw [hm] at hsome; exact absurd hsome (by simp)
  | cons c cs ih =>
    intro hex huni
    rw [searchWith]
    cases hm : m (c :: cs) with
    | some w => rw [huni (c :: cs) w (List.suffix_refl _) hm]
    | none =>
      apply ih
      · obtain ⟨u, hu, hsome⟩ := hex
        rcases List.suffix_cons_iff.mp hu with rfl | hu'
        · rw [hm] at hsome; exact absurd hsome (by simp)
        · exact ⟨u, hu', hsome⟩
      · intro u w hu hw
        exact huni u w (hu.trans (List.suffix_cons c cs)) hw

theorem takeExactly_eq (p : Char → Bool) :
    ∀ (n : Nat) (cs run rest : List Char),
      takeExactly p n cs = some (run, rest) →
      run.length = n ∧ run.all p = true ∧ cs = run ++ rest := by
  intro n
  induction n with
  | zero =>
    intro cs run rest h
    rw [takeExactly] at h
    cases h
    simp
  | succ n ih =>
    intro cs run rest h
    cases cs with
    | nil => exact absurd h (by rw [takeExactly]; simp)
    | cons c cs' =>
      rw [takeExactly] at h
      by_cases hp : p c
      · rw [if_pos hp] at h
        cases hrec : takeExactly p n cs' with
        | none => rw [hrec] at h; exact absurd h (by simp)
        | some pr =>
          obtain ⟨run', rest'⟩ := pr
          rw [hrec] at h
          cases h
          obtain ⟨h1, h2, h3⟩ := ih cs' run' _ hrec
          exact ⟨by simp [h1], by simp [hp, h2], by simp [h3]⟩
      · rw [if_neg hp] at h
        exact absurd h (by simp)

theorem takeExactly_of (p : Char → Bool) :
    ∀ (run rest : List Char), run.all p = true →
      takeExactly p run.length (run ++ rest) = some (run, rest) := by
  intro run
  induction run with
  | nil => intro rest _; simp [takeExactly]
  | cons c run' ih =>
    intro rest h
    rw [List.all_cons, Bool.and_eq_true] at h
    rw [List.length_cons, List.cons_append, takeExactly, if_pos h.1, ih rest h.2]

theorem matchDateTokenSep_sound (sep : Char) (cs g : List Char)
    (h : matchDateTokenSep sep cs = some g) :
    ∃ d1 mth d2 rest, g = d1 ++ [sep] ++ mth ++ [sep] ++ d2 ∧
      d1.length = 2 ∧ d1.all Char.isDigit = true ∧
      mth.length = 3 ∧ mth.all Char.isAlpha = true ∧
      d2.length = 4 ∧ d2.all Char.isDigit = true ∧
      cs = g ++ rest := by
  rw [matchDateTokenSep] at h
  cases h1 : takeExactly Char.isDigit 2 cs with
  | none => rw [h1] at h; exact absurd h (by simp)
  | some pr1 =>
    obtain ⟨d1, r1⟩ := pr1
    rw [h1] at h
    simp only at h
    cases r1 with
    | nil => exact absurd h (by simp)
    | cons c r2 =>
      simp only at h
      by_cases hc : c = sep
      · rw [if_pos hc] at h
        cases h3 : takeExactly Char.isAlpha 3 r2 with
        | none => rw [h3] at h; exact absurd h (by simp)
        | some pr2 =>
          obtain ⟨mth, r3⟩ := pr2
          rw [h3] at h
          simp only at h
          cases r3 with
          | nil => exact absurd h (by simp)
          | cons c2 r4 =>
            simp only at h
            by_cases hc2 : c2 = sep
            · rw [if_pos hc2] at h
              cases h5 : takeExactly Char.isDigit 4 r4 with
              | none => rw [h5] at h; exact absurd h (by simp)
              | some pr3 =>
                obtain ⟨d2, rest⟩ := pr3
                rw [h5] at h
                cases h
                obtain ⟨e1, e2, e3⟩ := takeExactly_eq Char.isDigit 2 cs d1 _ h1
                obtain ⟨e4, e5, e6⟩ := takeExactly_eq Char.isAlpha 3 r2 mth _ h3
                obtain ⟨e7, e8, e9⟩ := takeExactly_eq Char.isDigit 4 r4 d2 _ h5
                subst hc hc2
                refine ⟨d1, mth, d2, rest, rfl, e1, e2, e4, e5, e7, e8, ?_⟩
                rw [e3, e6, e9]
                simp
            · rw [if_neg hc2] at h
              exact absurd h (by simp)
      · rw [if_neg hc] at h
        exact absurd h (by simp)

theorem matchDateTokenSep_of (sep : Char) (d1 mth d2 rest : List Char)
    (h1 : d1.length = 2) (h2 : d1.all Char.isDigit = true)
    (h3 : mth.length = 3) (h4 : mth.all Char.isAlpha = true)
    (h5 : d2.length = 4) (h6 : d2.all Char.isDigit = true) :
    matchDateTokenSep sep (d1 ++ sep :: (mth ++ sep :: (d2 ++ rest))) =
      some (d1 ++ [sep] ++ mth ++ [sep] ++ d2) := by
  have e1 := takeExactly_of Char.isDigit d1 (sep :: (mth ++ sep :: (d2 ++ rest))) h2
  rw [h1] at e1
  have e2 := takeExactly_of Char.isAlpha mth (sep :: (d2 ++ rest)) h4
  rw [h3] at e2
  have e3 := takeExactly_of Char.isDigit d2 rest h6
  rw [h5] at e3
  rw [matchDateTokenSep, e1]
  simp only [e2, e3]
  simp

theorem matchDateTokenSep_self (sep : Char) (cs g : List Char)
    (h : matchDateTokenSep sep cs = some g) :
    matchDateTokenSep sep g = some g := by
  obtain ⟨d1, mth, d2, rest, rfl, h1, h2, h3, h4, h5, h6, -⟩ :=
    matchDateTokenSep_sound sep cs g h
  have := matchDateTokenSep_of sep d1 mth d2 [] h1 h2 h3 h4 h5 h6
  simpa [List.append_assoc] using this

theorem re_xd_date_shape (s tok : String) (h : re_xd_date s = some tok) :
    is_date_token '.' tok = true := by
  rw [re_xd_date] at h
  cases hs : searchWith matchXdAt s.toList with
  | none => rw [hs] at h; exact absurd h (by simp)
  | some g =>
    rw [hs] at h
    simp only [Option.map_some'] at h
    cases h
    obtain ⟨t, _, hmt⟩ := searchWith_eq_some matchXdAt s.toList g hs
    rw [matchXdAt] at hmt
    cases hlit : takeLit "XD:".toList t with
    | none => rw [hlit] at hmt; exact absurd hmt (by simp)
    | some r1 =>
      rw [hlit] at hmt
      have hself := matchDateTokenSep_self '.' _ g hmt
      rw [is_date_token, decide_eq_true_eq]
      exact hself

/-! ## C7: the ex-dividend date -/

/-- C7: when the flattened text contains the label `XD:` followed by an
optional dash and a dotted `DD.Mon.YYYY` token, the extractor stores that
token with its dots replaced by dashes as `XD_Date` (the found token
really is a dotted date token); when the dotted search fails but the text
contains `XD:` followed by `TBA`, the literal string `"TBA"` is stored
instead. -/
theorem xd_extraction :
    (∀ (p : Post) (r : DivRecord) (tok : String),
      extract_dividend_data p = some r → re_xd_date p.content = some tok →
      r.XD_Date = some (replaceDots tok) ∧ is_date_token '.' tok = true) ∧
    (∀ (p : Post) (r : DivRecord),
      extract_dividend_data p = some r → re_xd_date p.content = none →
      re_xd_tba p.content = true → r.XD_Date = some "TBA") := by
  have hproj : ∀ (p : Post) (r : DivRecord), extract_dividend_data p = some r →
      r.XD_Date = (match re_xd_date p.content with
        | some xd => some (replaceDots xd)
        | none => if re_xd_tba p.content then some "TBA" else none) := by
    intro p r hx
    obtain ⟨hd?, content⟩ := p
    cases hd? with
    | none => exact absurd hx (by simp [extract_dividend_data])
    | some hd =>
      obtain ⟨lt?⟩ := hd
      cases lt? with
      | none => exact absurd hx (by simp [extract_dividend_data])
      | some t =>
        cases ht : re_title_date t with
        | none => exact absurd hx (by simp [extract_dividend_data, ht])
        | some tok0 =>
          simp only [extract_dividend_data, ht] at hx
          cases hx
          rfl
  constructor
  · intro p r tok hx hxd
    refine ⟨?_, re_xd_date_shape p.content tok hxd⟩
    rw [hproj p r hx, hxd]
  · intro p r hx hxd htba
    rw [hproj p r hx, hxd, if_pos htba]

/-- The post used by the C7 witness. -/
def pXd : Post :=
  { heading := some { linkText := some "Acme Dividend 01-Jan-2024 - ACME" },
    content := "Acme Dividend 01-Jan-2024 - ACME\nAcme Corp\nDate of Announcement: - 05-Jun-2024\nXD: - 05.Jun.2024\nFinancial Year: 2023/2024\nRate of Dividend: Rs. 2.50 per share" }

/-- The record `pXd` extracts to. -/
def rXd : DivRecord :=
  { Post_Date := some "01-Jan-2024", Company_Code := some "ACME",
    Company_Name := some "Acme Corp",
    Date_of_Announcement := some "05-Jun-2024",
    XD_Date := some "05-Jun-2024", Financial_Year := some "2023/2024",
    Dividend_Rate := some "Rs. 2.50" }

set_option maxRecDepth 4000 in
/-- Closed instance of `xd_extraction` on `pXd`: the dotted token
`05.Jun.2024` is found, is a dotted date token, and is stored with dashes. -/
theorem xd_extraction_witness :
    rXd.XD_Date = some (replaceDots "05.Jun.2024") ∧
      is_date_token '.' "05.Jun.2024" = true :=
  xd_extraction.1 pXd rXd "05.Jun.2024" (by decide) (by decide)

/-! ## Company-code matcher lemmas -/

theorem space_not_upper {c : Char} (h : isSpacePy c = true) : c.isUpper = false := by
  simp only [isSpacePy, Bool.or_eq_true, decide_eq_true_eq] at h
  rcases h with ((((rfl | rfl) | rfl) | rfl) | rfl) | rfl <;> decide

theorem upper_not_space {c : Char} (h : c.isUpper = true) : isSpacePy c = false := by
  cases hs : isSpacePy c
  · rfl
  · rw [space_not_upper hs] at h
    exact absurd h (by simp)

theorem takeWhile_of_all_append (p : Char → Bool) :
    ∀ (xs ys : List Char), xs.all p = true →
      (∀ a, ys.head? = some a → p a = false) →
      (xs ++ ys).takeWhile p = xs ∧ (xs ++ ys).dropWhile p = ys := by
  intro xs
  induction xs with
  | nil =>
    intro ys _ hhead
    cases ys with
    | nil => simp
    | cons a ys' =>
      have ha := hhead a rfl
      simp [List.takeWhile_cons, List.dropWhile_cons, ha]
  | cons x xs' ih =>
    intro ys hall hhead
    rw [List.all_cons, Bool.and_eq_true] at hall
    have h2 := ih ys hall.2 hhead
    simp [List.takeWhile_cons, List.dropWhile_cons, hall.1, h2.1, h2.2]

/-- Any decomposition of `L` as «prefix, dash, non-empty whitespace,
non-empty uppercase run, trailing whitespace» determines the uppercase
run uniquely from `L` alone: it is the maximal uppercase run that ends
where the trailing whitespace of `L` begins. -/
theorem code_run_det (L pre ws1 w ws2 : List Char)
    (hL : L = pre ++ '-' :: (ws1 ++ w ++ ws2))
    (hws1 : ws1.all isSpacePy = true) (hws1ne : ws1 ≠ [])
    (hw : w.all Char.isUpper = true) (hwne : w ≠ [])
    (hws2 : ws2.all isSpacePy = true) :
    ((L.reverse.dropWhile isSpacePy).takeWhile Char.isUpper).reverse = w := by
  have hrev : L.reverse =
      ws2.reverse ++ (w.reverse ++ (ws1.reverse ++ ('-' :: pre.reverse))) := by
    rw [hL]
    simp [List.reverse_append, List.reverse_cons, List.append_assoc]
  have hws2r : ws2.reverse.all isSpacePy = true := by
    rw [List.all_reverse]; exact hws2
  have hwr : w.reverse.all Char.isUpper = true := by
    rw [List.all_reverse]; exact hw
  have hwhead : ∀ a, (w.reverse ++ (ws1.reverse ++ ('-' :: pre.reverse))).head? =
      some a → isSpacePy a = false := by
    intro a ha
    cases hc : w.reverse with
    | nil => exact absurd (List.reverse_eq_nil_iff.mp hc) hwne
    | cons b t =>
      rw [hc, List.cons_append, List.head?_cons] at ha
      cases ha
      have hb : a ∈ w := by
        rw [← List.mem_reverse, hc]; exact List.mem_cons_self _ _
      exact upper_not_space (List.all_eq_true.mp hw a hb)
  have hdrop := (takeWhile_of_all_append isSpacePy ws2.reverse
    (w.reverse ++ (ws1.reverse ++ ('-' :: pre.reverse))) hws2r hwhead).2
  have hws1head : ∀ a, (ws1.reverse ++ ('-' :: pre.reverse)).head? = some a →
      a.isUpper = false := by
    intro a ha
    cases hc : ws1.reverse with
    | nil => exact absurd (List.reverse_eq_nil_iff.mp hc) hws1ne
    | cons b t =>
      rw [hc, List.cons_append, List.head?_cons] at ha
      cases ha
      have hb : a ∈ ws1 := by
        rw [← List.mem_reverse, hc]; exact List.mem_cons_self _ _
      exact space_not_upper (List.all_eq_true.mp hws1 a hb)
  have htake := (takeWhile_of_all_append Char.isUpper w.reverse
    (ws1.reverse ++ ('-' :: pre.reverse)) hwr hws1head).1
  rw [hrev, hdrop, htake, List.reverse_reverse]

theorem matchCodeAt_sound (u v : List Char) (h : matchCodeAt u = some v) :
    ∃ ws1 ws2, u = '-' :: (ws1 ++ v ++ ws2) ∧ ws1 ≠ [] ∧
      ws1.all isSpacePy = true ∧ v ≠ [] ∧ v.all Char.isUpper = true ∧
      ws2.all isSpacePy = true := by
  rw [matchCodeAt.eq_def] at h
  split at h
  case h_2 => exact absurd h (by simp)
  case h_1 rest =>
    dsimp only at h
    split at h
    case isTrue => exact absurd h (by simp)
    case isFalse hsp =>
      split at h
      case isTrue => exact absurd h (by simp)
      case isFalse hups =>
        split at h
        case isFalse => exact absurd h (by simp)
        case isTrue hr2 =>
          cases h
          refine ⟨rest.takeWhile isSpacePy,
            (rest.dropWhile isSpacePy).dropWhile Char.isUpper, ?_, ?_, ?_, ?_, ?_, ?_⟩
          · rw [List.append_assoc,
              List.takeWhile_append_dropWhile Char.isUpper (rest.dropWhile isSpacePy),
              List.takeWhile_append_dropWhile isSpacePy rest]
          · intro hne
            exact hsp (List.isEmpty_iff.mpr hne)
          · exact List.all_eq_true.mpr (fun x hx => List.mem_takeWhile_imp hx)
          · intro hne
            exact hups (List.isEmpty_iff.mpr hne)
          · exact List.all_eq_true.mpr (fun x hx => List.mem_takeWhile_imp hx)
          · rw [List.isEmpty_iff, List.dropWhile_eq_nil_iff] at hr2
            exact List.all_eq_true.mpr hr2

theorem matchCodeAt_complete (c : List Char) (hne : c ≠ [])
    (hup : c.all Char.isUpper = true) :
    matchCodeAt ('-' :: ' ' :: c) = some c := by
  obtain ⟨a, t, rfl⟩ : ∃ a t, c = a :: t := by
    cases c with
    | nil => exact absurd rfl hne
    | cons a t => exact ⟨a, t, rfl⟩
  rw [List.all_cons, Bool.and_eq_true] at hup
  have hna : isSpacePy a = false := upper_not_space hup.1
  have htk : (a :: t).takeWhile Char.isUpper = a :: t :=
    List.takeWhile_eq_self_iff.mpr (by
      intro x hx
      rcases List.mem_cons.mp hx with rfl | hx'
      · exact hup.1
      · exact List.all_eq_true.mp hup.2 x hx')
  have hdr : (a :: t).dropWhile Char.isUpper = [] :=
    List.dropWhile_eq_nil_iff.mpr (by
      intro x hx
      rcases List.mem_cons.mp hx with rfl | hx'
      · exact hup.1
      · exact List.all_eq_true.mp hup.2 x hx')
  rw [matchCodeAt]
  simp [List.takeWhile_cons, List.dropWhile_cons, hna, htk, hdr,
    show isSpacePy ' ' = true from rfl, hup.1]

/-! ## C8: the trailing company code -/

/-- C8: the extractor stores exactly `re_code title` as `Company_Code`
(so a title with no trailing dash-code leaves the field absent without
error); `re_code` succeeds on every title of the form
`‹anything› ++ "- " ++ ‹non-empty uppercase token›`, returning that
token; and whenever `re_code` succeeds, the title really decomposes as
«prefix, dash, whitespace, the returned uppercase token, trailing
whitespace». -/
theorem company_code_extraction :
    (∀ (p : Post) (r : DivRecord) (hd : Heading) (t : String),
      extract_dividend_data p = some r → p.heading = some hd →
      hd.linkText = some t → r.Company_Code = re_code t) ∧
    (∀ (u c : String), c ≠ "" → c.toList.all Char.isUpper = true →
      re_code (u ++ "- " ++ c) = some c) ∧
    (∀ (t c : String), re_code t = some c →
      ∃ w a b, t.toList = w ++ '-' :: (a ++ c.toList ++ b) ∧ a ≠ [] ∧
        a.all isSpacePy = true ∧ b.all isSpacePy = true ∧ c.toList ≠ [] ∧
        c.toList.all Char.isUpper = true) := by
  refine ⟨?_, ?_, ?_⟩
  · intro p r hd t hx hhd hlt
    obtain ⟨hd?, content⟩ := p
    cases hhd
    obtain ⟨lt?⟩ := hd
    cases hlt
    cases ht : re_title_date t with
    | none => exact absurd hx (by simp [extract_dividend_data, ht])
    | some tok0 =>
      simp only [extract_dividend_data, ht] at hx
      cases hx
      rfl
  · intro u c hne hup
    have hnel : c.toList ≠ [] := by
      intro hl
      apply hne
      have h0 : c.toList.asString = ([] : List Char).asString := by rw [hl]
      exact h0
    have hL : (u ++ "- " ++ c).toList = u.toList ++ ('-' :: ' ' :: c.toList) := by
      simp [List.append_assoc]
    have hex : ∃ u', u' <:+ u.toList ++ ('-' :: ' ' :: c.toList) ∧
        (matchCodeAt u').isSome :=
      ⟨'-' :: ' ' :: c.toList, ⟨u.toList, rfl⟩,
        by rw [matchCodeAt_complete c.toList hnel hup]; rfl⟩
    have huni : ∀ u' w, u' <:+ u.toList ++ ('-' :: ' ' :: c.toList) →
        matchCodeAt u' = some w → w = c.toList := by
      intro u' w hu' hw
      obtain ⟨ws1, ws2, hdec, hws1ne, hws1, hwne, hwup, hws2⟩ :=
        matchCodeAt_sound u' w hw
      obtain ⟨pre1, hpre1⟩ := hu'
      have hL1 : u.toList ++ ('-' :: ' ' :: c.toList) =
          pre1 ++ '-' :: (ws1 ++ w ++ ws2) := by
        rw [← hpre1, hdec]
      have d1 := code_run_det (u.toList ++ ('-' :: ' ' :: c.toList))
        pre1 ws1 w ws2 hL1 hws1 hws1ne hwup hwne hws2
      have hL2 : u.toList ++ ('-' :: ' ' :: c.toList) =
          u.toList ++ '-' :: ([' '] ++ c.toList ++ []) := by simp
      have d2 := code_run_det (u.toList ++ ('-' :: ' ' :: c.toList))
        u.toList [' '] c.toList [] hL2 (by decide) (by decide) hup hnel rfl
      exact d1.symm.trans d2
    rw [re_code, hL,
      searchWith_some_of matchCodeAt c.toList (u.toList ++ ('-' :: ' ' :: c.toList))
        hex huni]
    rfl
  · intro t c hc
    rw [re_code] at hc
    cases hs : searchWith matchCodeAt t.toList with
    | none => rw [hs] at hc; exact absurd hc (by simp)
    | some g =>
      rw [hs] at hc
      simp only [Option.map_some'] at hc
      cases hc
      obtain ⟨u', hu', hmt⟩ := searchWith_eq_some matchCodeAt t.toList g hs
      obtain ⟨ws1, ws2, hdec, hws1ne, hws1, hwne, hwup, hws2⟩ :=
        matchCodeAt_sound u' g hmt
      obtain ⟨w, hw⟩ := hu'
      refine ⟨w, ws1, ws2, ?_, hws1ne, hws1, hws2, hwne, hwup⟩
      rw [← hw, hdec]
      rfl

/-- Closed instance of `company_code_extraction`: a title ending in
`- ABC` yields company code `ABC`. -/
theorem company_code_extraction_witness :
    re_code ("Dividend 05-Jun-2024 " ++ "- " ++ "ABC") = some "ABC" :=
  company_code_extraction.2.1 "Dividend 05-Jun-2024 " "ABC" (by decide) (by decide)

end CseScraper
